import Mathlib

/-!
A shallow embedding of the `browser-engine` repository's parsing core
(`src/dom/node.rs` and `src/dom/html.rs`).

The node model (`AttrMap`, `ElementData`, `NodeType`, `Node`, the `text` and
`element` constructors, `id` and `classes`) is translated from `node.rs`:
the Rust `HashMap<String, String>` becomes an association list whose `insert`
overwrites the binding of an existing key (the observable behaviour of the
hash map), and the `HashSet<&str>` returned by `classes` becomes a
`Finset String`.

The parser (`html.rs`) becomes explicit state passing over
`Parser = {pos, input}`; the input is a list of characters and the cursor an
index into it (the Rust code indexes bytes but always advances by whole
UTF-8 characters, so the character-level view is faithful).  Every `assert!`
/ `assert_eq!` / `unwrap` in the Rust source — each of which aborts the
parse — is modelled as a typed `ParseError` named after the condition it
checks, following the taxonomy of the specification; the recursive grammar
rules take a fuel argument to make the recursion structural, with a
dedicated `outOfFuel` marker that the entry point's fuel budget keeps
unreachable.
-/

namespace Dom

/-- `AttrMap` from `node.rs`: a name → value map, embedded as an association
list. -/
abbrev AttrMap := List (String × String)

/-- The empty attribute map (`HashMap::new()` / `AttrMap::new()`). -/
def AttrMap.emptyMap : AttrMap := []

/-- `HashMap::insert`: overwrite the binding of `k` when present, otherwise
append a new binding. -/
def AttrMap.insert : AttrMap → String → String → AttrMap
  | [], k, v => [(k, v)]
  | (a, b) :: rest, k, v =>
    if a == k then (k, v) :: rest
    else (a, b) :: AttrMap.insert rest k v

/-- `HashMap::get`: the value bound to `k`, if any. -/
def AttrMap.get : AttrMap → String → Option String
  | [], _ => none
  | (a, b) :: rest, k => if a == k then some b else AttrMap.get rest k

/-- `ElementData` from `node.rs`. -/
structure ElementData where
  tag_name : String
  attributes : AttrMap
deriving DecidableEq

/-- `NodeType` from `node.rs`. -/
inductive NodeType where
  | text (data : String)
  | element (data : ElementData)
  | comment (data : String)
deriving DecidableEq

/-- `Node` from `node.rs`: children plus a node type (the reference model
carries a child list on every variant). -/
inductive Node where
  | mk (children : List Node) (node_type : NodeType)

/-- The `children` field of a `Node`. -/
def Node.children : Node → List Node
  | .mk c _ => c

/-- The `node_type` field of a `Node`. -/
def Node.nodeType : Node → NodeType
  | .mk _ t => t

/-- `text` constructor from `node.rs`: a text node with no children. -/
def text (data : String) : Node := Node.mk [] (NodeType.text data)

/-- `element` constructor from `node.rs`. -/
def element (name : String) (attrs : AttrMap) (children : List Node) : Node :=
  Node.mk children (NodeType.element ⟨name, attrs⟩)

/-- `ElementData::id` from `node.rs`. -/
def ElementData.id (d : ElementData) : Option String :=
  AttrMap.get d.attributes "id"

/-- `str::split(' ')` as used by `ElementData::classes`: split a character
list at every single space character; adjacent, leading and trailing
separators produce empty pieces, and the empty input yields one empty
piece. -/
def splitSpace : List Char → List (List Char)
  | [] => [[]]
  | c :: rest =>
    if c = ' ' then [] :: splitSpace rest
    else
      match splitSpace rest with
      | [] => [[c]]
      | s :: ss => (c :: s) :: ss

/-- `ElementData::classes` from `node.rs`: split the value of the "class"
attribute on spaces and collect the pieces into a set; the empty set when
the attribute is absent. -/
def ElementData.classes (d : ElementData) : Finset String :=
  match AttrMap.get d.attributes "class" with
  | some class_list => ((splitSpace class_list.data).map String.mk).toFinset
  | none => ∅

/-- Joining pieces with single spaces, the inverse of `splitSpace`; used to
state that `splitSpace` cuts exactly at spaces and loses no characters. -/
def joinSpace : List (List Char) → List Char
  | [] => []
  | [s] => s
  | s :: t :: rest => s ++ ' ' :: joinSpace (t :: rest)

/-- The typed conditions corresponding to the `assert` / `unwrap` sites of
`html.rs`, named after the specification's error taxonomy.  `outOfFuel` is
an artefact of the fuelled embedding of the recursive grammar rules and is
unreachable under the entry point's fuel budget. -/
inductive ParseError where
  | unexpectedEof
  | expectedLt
  | expectedGt
  | expectedSlash
  | expectedCloseGt
  | expectedEquals
  | expectedQuote
  | unterminatedAttrValue
  | mismatchedClosingTag
  | outOfFuel
deriving DecidableEq

/-- The parser state from `html.rs`: a cursor and the input string. -/
structure Parser where
  pos : Nat
  input : List Char
deriving DecidableEq

/-- `Parser::next_char`: the character at the cursor.  The Rust code calls
`unwrap` and panics at end of input; the embedding returns `none` there and
each caller maps it to `ParseError.unexpectedEof`. -/
def Parser.next_char (p : Parser) : Option Char :=
  (p.input.drop p.pos).head?

/-- `Parser::starts_with`: does the remaining input start with `s`? -/
def Parser.starts_with (p : Parser) (s : String) : Bool :=
  List.isPrefixOf s.data (p.input.drop p.pos)

/-- `Parser::eof`: is the cursor at or past the end of the input? -/
def Parser.eof (p : Parser) : Bool :=
  decide (p.input.length ≤ p.pos)

/-- `Parser::consume_char`: return the character at the cursor and advance
past it; at end of input return a space character and leave the cursor
unchanged (the `else` branch of the Rust source). -/
def Parser.consume_char (p : Parser) : Char × Parser :=
  match (p.input.drop p.pos).head? with
  | some c => (c, { p with pos := p.pos + 1 })
  | none => (' ', p)

/-- `Parser::consume_while`: consume the maximal run of characters
satisfying `pred` starting at the cursor and return it. -/
def Parser.consume_while (p : Parser) (pred : Char → Bool) : String × Parser :=
  let s := (p.input.drop p.pos).takeWhile pred
  (String.mk s, { p with pos := p.pos + s.length })

/-- `Parser::consume_whitespace`: consume a maximal whitespace run,
discarding it. -/
def Parser.consume_whitespace (p : Parser) : Parser :=
  (p.consume_while Char.isWhitespace).2

/-- `Parser::parse_tag_name`: a maximal run of ASCII letters and digits. -/
def Parser.parse_tag_name (p : Parser) : String × Parser :=
  p.consume_while fun c =>
    ('a' ≤ c && c ≤ 'z') || ('A' ≤ c && c ≤ 'Z') || ('0' ≤ c && c ≤ '9')

/-- `Parser::parse_text`: a text node holding everything up to the next
`<`. -/
def Parser.parse_text (p : Parser) : Node × Parser :=
  let (s, p1) := p.consume_while fun c => c != '<'
  (text s, p1)

/-- `Parser::parse_attr_value`: an attribute value enclosed in matching
single or double quotes.  The `assert!` on the opening quote becomes
`expectedQuote`; the `assert_eq!` on the closing quote can only fail when
the quote never reappears (then `consume_char` at end of input yields a
space), so it becomes `unterminatedAttrValue`. -/
def Parser.parse_attr_value (p : Parser) : Except ParseError (String × Parser) :=
  match p.consume_char with
  | (open_quote, p1) =>
    if open_quote = '"' ∨ open_quote = '\'' then
      match p1.consume_while fun c => c != open_quote with
      | (value, p2) =>
        match p2.consume_char with
        | (c2, p3) =>
          if c2 = open_quote then .ok (value, p3)
          else .error .unterminatedAttrValue
    else .error .expectedQuote

/-- `Parser::parse_attr`: a `name="value"` pair; the `assert_eq!` on `=`
becomes `expectedEquals`. -/
def Parser.parse_attr (p : Parser) : Except ParseError ((String × String) × Parser) :=
  match p.parse_tag_name with
  | (name, p1) =>
    match p1.consume_char with
    | (c, p2) =>
      if c = '=' then
        match p2.parse_attr_value with
        | .error e => .error e
        | .ok (value, p3) => .ok ((name, value), p3)
      else .error .expectedEquals

/-- The loop body of `Parser::parse_attributes`, with fuel making the
recursion structural: skip whitespace, stop at `>`, otherwise parse one
attribute and insert it into the map (overwriting a duplicate name). -/
def Parser.parse_attributes_loop : Nat → AttrMap → Parser → Except ParseError (AttrMap × Parser)
  | 0, _, _ => .error .outOfFuel
  | fuel + 1, attrs, p =>
    let p1 := p.consume_whitespace
    match p1.next_char with
    | none => .error .unexpectedEof
    | some c =>
      if c = '>' then .ok (attrs, p1)
      else
        match p1.parse_attr with
        | .error e => .error e
        | .ok ((name, value), p2) =>
          Parser.parse_attributes_loop fuel (AttrMap.insert attrs name value) p2

/-- `Parser::parse_attributes`.  Each successful loop iteration consumes at
least the `=` character, so a budget of one more than the remaining input
length never runs out of fuel. -/
def Parser.parse_attributes (p : Parser) : Except ParseError (AttrMap × Parser) :=
  Parser.parse_attributes_loop (p.input.length + 1 - p.pos) AttrMap.emptyMap p

mutual

/-- `Parser::parse_node`: dispatch on the next character — `<` starts an
element, anything else is text; the `unwrap` inside `next_char` at end of
input becomes `unexpectedEof`. -/
def Parser.parse_node : Nat → Parser → Except ParseError (Node × Parser)
  | 0, _ => .error .outOfFuel
  | fuel + 1, p =>
    match p.next_char with
    | none => .error .unexpectedEof
    | some c =>
      if c = '<' then Parser.parse_element fuel p
      else .ok p.parse_text

/-- `Parser::parse_element`: `<tag attrs> children </tag>`.  The four
`assert_eq!` on `<`, `>`, the closing `</` and the final `>` become
`expectedLt`, `expectedGt`, `expectedLt` / `expectedSlash` and
`expectedCloseGt`; the `assert_eq!` comparing the closing tag name with the
opening one becomes `mismatchedClosingTag`. -/
def Parser.parse_element : Nat → Parser → Except ParseError (Node × Parser)
  | 0, _ => .error .outOfFuel
  | fuel + 1, p =>
    match p.consume_char with
    | (c0, p1) =>
      if c0 = '<' then
        match p1.parse_tag_name with
        | (tag_name, p2) =>
          match p2.parse_attributes with
          | .error e => .error e
          | .ok (attrs, p3) =>
            match p3.consume_char with
            | (c1, p4) =>
              if c1 = '>' then
                match Parser.parse_nodes fuel p4 with
                | .error e => .error e
                | .ok (children, p5) =>
                  match p5.consume_char with
                  | (c2, p6) =>
                    if c2 = '<' then
                      match p6.consume_char with
                      | (c3, p7) =>
                        if c3 = '/' then
                          match p7.parse_tag_name with
                          | (closing, p8) =>
                            if closing = tag_name then
                              match p8.consume_char with
                              | (c4, p9) =>
                                if c4 = '>' then
                                  .ok (element tag_name attrs children, p9)
                                else .error .expectedCloseGt
                            else .error .mismatchedClosingTag
                        else .error .expectedSlash
                    else .error .expectedLt
              else .error .expectedGt
      else .error .expectedLt

/-- `Parser::parse_nodes`: siblings until end of input or a closing-tag
marker `</`. -/
def Parser.parse_nodes : Nat → Parser → Except ParseError (List Node × Parser)
  | 0, _ => .error .outOfFuel
  | fuel + 1, p =>
    let p1 := p.consume_whitespace
    if p1.eof || p1.starts_with "</" then .ok ([], p1)
    else
      match Parser.parse_node fuel p1 with
      | .error e => .error e
      | .ok (n, p2) =>
        match Parser.parse_nodes fuel p2 with
        | .error e => .error e
        | .ok (ns, p3) => .ok (n :: ns, p3)

end

/-- `Parser::parse`, the `parseDocument` entry point: parse all top-level
nodes starting at cursor 0; a single top-level node is returned directly
(`swap_remove(0)` on a one-element vector), otherwise the siblings are
wrapped in a synthesized `html` element with no attributes.  The fuel
budget of three units per input character plus three is enough because
every three consecutive fuel decrements consume at least one input
character. -/
def Parser.parse (source : String) : Except ParseError Node :=
  match Parser.parse_nodes (3 * source.length + 3) { pos := 0, input := source.data } with
  | .error e => .error e
  | .ok (nodes, _) =>
    match nodes with
    | [n] => .ok n
    | ns => .ok (element "html" AttrMap.emptyMap ns)

/-! ### Helper lemmas about the splitting of class attribute values -/

/-- `splitSpace` never returns an empty list of pieces. -/
theorem splitSpace_ne_nil (cs : List Char) : splitSpace cs ≠ [] := by
  cases cs with
  | nil => simp [splitSpace]
  | cons c rest =>
    by_cases h : c = ' '
    · simp [splitSpace, h]
    · cases hs : splitSpace rest with
      | nil => simp [splitSpace, h, hs]
      | cons s ss => simp [splitSpace, h, hs]

/-- `splitSpace` unfolded at a leading space. -/
theorem splitSpace_cons_space (rest : List Char) :
    splitSpace (' ' :: rest) = [] :: splitSpace rest := by
  simp [splitSpace]

/-- `splitSpace` unfolded at a leading non-space character. -/
theorem splitSpace_cons_nonspace {c : Char} (h : ¬ c = ' ') (rest : List Char)
    {s : List Char} {ss : List (List Char)} (hs : splitSpace rest = s :: ss) :
    splitSpace (c :: rest) = (c :: s) :: ss := by
  simp [splitSpace, h, hs]

/-- Re-joining the pieces of `splitSpace` with single spaces recovers the
input: the split loses no characters and cuts exactly at spaces. -/
theorem joinSpace_splitSpace (cs : List Char) : joinSpace (splitSpace cs) = cs := by
  induction cs with
  | nil => rfl
  | cons c rest ih =>
    by_cases h : c = ' '
    · subst h
      cases hs : splitSpace rest with
      | nil => exact absurd hs (splitSpace_ne_nil rest)
      | cons s ss =>
        rw [splitSpace_cons_space, hs]
        rw [hs] at ih
        show [] ++ ' ' :: joinSpace (s :: ss) = ' ' :: rest
        rw [ih]
        rfl
    · cases hs : splitSpace rest with
      | nil => exact absurd hs (splitSpace_ne_nil rest)
      | cons s ss =>
        rw [splitSpace_cons_nonspace h rest hs]
        rw [hs] at ih
        cases ss with
        | nil =>
          show c :: s = c :: rest
          rw [show s = rest from ih]
        | cons t ts =>
          show (c :: s) ++ ' ' :: joinSpace (t :: ts) = c :: rest
          rw [List.cons_append, show s ++ ' ' :: joinSpace (t :: ts) = rest from ih]

/-- No piece produced by `splitSpace` contains a space character. -/
theorem splitSpace_no_space (cs : List Char) : ∀ t ∈ splitSpace cs, ' ' ∉ t := by
  induction cs with
  | nil =>
    intro t ht
    simp [splitSpace] at ht
    subst ht
    simp
  | cons c rest ih =>
    intro t ht
    by_cases h : c = ' '
    · subst h
      rw [splitSpace_cons_space, List.mem_cons] at ht
      rcases ht with ht | ht
      · subst ht; simp
      · exact ih t ht
    · cases hs : splitSpace rest with
      | nil => exact absurd hs (splitSpace_ne_nil rest)
      | cons s ss =>
        rw [splitSpace_cons_nonspace h rest hs, List.mem_cons] at ht
        rcases ht with ht | ht
        · subst ht
          intro hmem
          rcases List.mem_cons.mp hmem with h1 | h1
          · exact h h1.symm
          · exact ih s (by rw [hs]; exact List.mem_cons_self _ _) h1
        · exact ih t (by rw [hs]; exact List.mem_cons_of_mem _ ht)

/-! ### Claim theorems (first group) -/

/-- Claim C2: the end-to-end example — parsing
`<div id="main"><p>Hi</p></div>` yields the `div` element with exactly the
attribute pair `("id", "main")` and one child element `p` whose only child
is the text node `"Hi"`. -/
theorem parse_example_div : Parser.parse "<div id=\"main\"><p>Hi</p></div>" =
    .ok (element "div" [("id", "main")] [element "p" [] [text "Hi"]]) := rfl

/-- Claim C5: duplicate attribute names use map-overwrite semantics — after
inserting a binding for `k`, looking up `k` yields the newly inserted value,
and concretely `<a x="1" x="2"></a>` parses to an element whose attribute
`x` has value `"2"` (and whose attribute map holds only that binding). -/
theorem attr_last_occurrence_wins :
    (∀ (m : AttrMap) (k v : String), AttrMap.get (AttrMap.insert m k v) k = some v) ∧
    Parser.parse "<a x=\"1\" x=\"2\"></a>" = .ok (element "a" [("x", "2")] []) := by
  constructor
  · intro m k v
    induction m with
    | nil => simp [AttrMap.insert, AttrMap.get]
    | cons a rest ih =>
      obtain ⟨a1, a2⟩ := a
      by_cases h : a1 == k
      · simp [AttrMap.insert, AttrMap.get, h]
      · simp [AttrMap.insert, AttrMap.get, h, ih]
  · rfl

/-- Witness for C5 at a concrete map: re-inserting key `x` overwrites the
earlier value. -/
theorem attr_last_occurrence_wins_witness :
    AttrMap.get (AttrMap.insert [("x", "1")] "x" "2") "x" = some "2" :=
  attr_last_occurrence_wins.1 [("x", "1")] "x" "2"

/-- Claim C9: `consume_char` called at or past the end of the input returns
the space character and the unchanged parser state — no error is
signalled. -/
theorem consume_char_at_eof (p : Parser) (h : p.eof = true) :
    p.consume_char = (' ', p) := by
  have hlen : p.input.length ≤ p.pos := by simpa [Parser.eof] using h
  simp [Parser.consume_char, List.drop_eq_nil_of_le hlen]

/-- Witness for C9: a parser whose cursor is past its one-character input. -/
theorem consume_char_at_eof_witness :
    (Parser.mk 2 ['a']).eof = true ∧ (Parser.mk 2 ['a']).consume_char = (' ', Parser.mk 2 ['a']) :=
  ⟨by decide, consume_char_at_eof (Parser.mk 2 ['a']) (by decide)⟩

/-- Claim C1 (normalization of the root): whenever the top-level parse of
`source` succeeds with sibling list `ns`, `parse` returns the single
sibling directly when `ns` has exactly one entry, and otherwise returns a
synthesized `html` element with empty attributes whose children are exactly
`ns` in parse order. -/
theorem parse_single_root_normalization (source : String) (ns : List Node) (p' : Parser)
    (h : Parser.parse_nodes (3 * source.length + 3) { pos := 0, input := source.data } =
      .ok (ns, p')) :
    (∀ n, ns = [n] → Parser.parse source = .ok n) ∧
    (ns.length ≠ 1 → Parser.parse source = .ok (element "html" AttrMap.emptyMap ns)) := by
  constructor
  · intro n hn
    subst hn
    simp [Parser.parse, h]
  · intro hne
    unfold Parser.parse
    rw [h]
    cases ns with
    | nil => rfl
    | cons a t =>
      cases t with
      | nil => exact absurd (by simp) hne
      | cons b t2 => rfl

/-- Witness for C1: the empty document has zero top-level siblings, so
`parse` wraps them in a synthesized `html` element. -/
theorem parse_single_root_normalization_witness :
    List.length ([] : List Node) ≠ 1 ∧
    Parser.parse "" = .ok (element "html" AttrMap.emptyMap []) :=
  ⟨by decide,
    (parse_single_root_normalization "" [] { pos := 0, input := [] } rfl).2 (by decide)⟩

/-- Counterexample for C7 as stated: for input `<a>text` the parse fails
with neither `unexpectedEof` nor `mismatchedClosingTag` — the failing
check is the closing-tag `<` assertion, because `consume_char` at end of
input yields a space character rather than a missing-character error. -/
theorem parse_unclosed_tag_not_eof_or_mismatch :
    Parser.parse "<a>text" ≠ .error .unexpectedEof ∧
    Parser.parse "<a>text" ≠ .error .mismatchedClosingTag := by
  have h : Parser.parse "<a>text" = .error .expectedLt := rfl
  rw [h]
  constructor
  · intro hc
    exact ParseError.noConfusion (Except.error.inj hc)
  · intro hc
    exact ParseError.noConfusion (Except.error.inj hc)

/-- Amended C7: for input `<a>text` the parse surfaces the typed
`expectedLt` condition (the closing-tag `<` check fails: scanning reached
end of input, where `consume_char` yields a space), and in the embedding
every grammar violation is a typed `ParseError` value rather than an
untyped crash. -/
theorem parse_unclosed_tag_typed :
    Parser.parse "<a>text" = .error .expectedLt := rfl

/-- A trailing space produces a final empty piece (preceded by at least one
other piece). -/
theorem splitSpace_trailing (cs : List Char) :
    ∃ l, splitSpace (cs ++ [' ']) = l ++ [[]] ∧ l ≠ [] := by
  induction cs with
  | nil =>
    refine ⟨[[]], ?_, by simp⟩
    simp [splitSpace]
  | cons c rest ih =>
    obtain ⟨l, hl, hne⟩ := ih
    by_cases h : c = ' '
    · subst h
      refine ⟨[] :: l, ?_, by simp⟩
      show splitSpace (' ' :: (rest ++ [' '])) = ([] :: l) ++ [[]]
      rw [splitSpace_cons_space, hl]
      rfl
    · cases l with
      | nil => exact absurd rfl hne
      | cons s l' =>
        refine ⟨(c :: s) :: l', ?_, by simp⟩
        show splitSpace (c :: (rest ++ [' '])) = (c :: s) :: (l' ++ [[]])
        exact splitSpace_cons_nonspace h _ hl

/-- Two adjacent spaces produce an interior empty piece (preceded by at
least one other piece). -/
theorem splitSpace_adjacent (a b : List Char) :
    ∃ l1 l2, splitSpace (a ++ ' ' :: ' ' :: b) = l1 ++ [] :: l2 ∧ l1 ≠ [] := by
  induction a with
  | nil =>
    refine ⟨[[]], splitSpace b, ?_, by simp⟩
    show splitSpace (' ' :: ' ' :: b) = [[]] ++ [] :: splitSpace b
    rw [splitSpace_cons_space, splitSpace_cons_space]
    rfl
  | cons c a' ih =>
    obtain ⟨l1, l2, hl, hne⟩ := ih
    by_cases h : c = ' '
    · subst h
      refine ⟨[] :: l1, l2, ?_, by simp⟩
      show splitSpace (' ' :: (a' ++ ' ' :: ' ' :: b)) = ([] :: l1) ++ [] :: l2
      rw [splitSpace_cons_space, hl]
      rfl
    · cases l1 with
      | nil => exact absurd rfl hne
      | cons s l1' =>
        refine ⟨(c :: s) :: l1', l2, ?_, by simp⟩
        show splitSpace (c :: (a' ++ ' ' :: ' ' :: b)) = (c :: s) :: (l1' ++ [] :: l2)
        exact splitSpace_cons_nonspace h _ hl

/-- Claim C6: `classes` splits the value of the "class" attribute on single
spaces — re-joining the pieces with single spaces recovers the value and no
piece contains a space — returning the piece set; the set is empty when the
attribute is absent, and value `"foo bar"` yields exactly `{"foo", "bar"}`. -/
theorem classes_splits_on_single_space :
    (∀ cs, joinSpace (splitSpace cs) = cs) ∧
    (∀ cs, ∀ t ∈ splitSpace cs, ' ' ∉ t) ∧
    (∀ d : ElementData, AttrMap.get d.attributes "class" = none → d.classes = ∅) ∧
    (∀ d : ElementData, AttrMap.get d.attributes "class" = some "foo bar" →
      d.classes = {"foo", "bar"}) := by
  refine ⟨joinSpace_splitSpace, splitSpace_no_space, ?_, ?_⟩
  · intro d h
    unfold ElementData.classes
    rw [h]
  · intro d h
    unfold ElementData.classes
    rw [h]
    decide

/-- Witness for C6: a concrete element whose class attribute is
`"foo bar"`. -/
theorem classes_splits_on_single_space_witness :
    AttrMap.get (ElementData.mk "p" [("class", "foo bar")]).attributes "class" = some "foo bar" ∧
    (ElementData.mk "p" [("class", "foo bar")]).classes = {"foo", "bar"} :=
  ⟨rfl, classes_splits_on_single_space.2.2.2 (ElementData.mk "p" [("class", "foo bar")]) rfl⟩

/-- Claim C10: a present-but-empty "class" attribute yields the singleton
set containing the empty string (which differs from the empty set), and a
value with a leading space, a trailing space, or two adjacent spaces always
contributes the empty string to the returned set. -/
theorem classes_empty_string_tokens :
    (∀ d : ElementData, AttrMap.get d.attributes "class" = some "" → d.classes = {""}) ∧
    ({""} : Finset String) ≠ (∅ : Finset String) ∧
    (∀ (d : ElementData) (v : String), AttrMap.get d.attributes "class" = some v →
      (v.data.head? = some ' ' ∨ (∃ a, v.data = a ++ [' ']) ∨
        (∃ a b, v.data = a ++ ' ' :: ' ' :: b)) →
      "" ∈ d.classes) := by
  refine ⟨?_, by decide, ?_⟩
  · intro d h
    unfold ElementData.classes
    rw [h]
    decide
  · intro d v h hsp
    unfold ElementData.classes
    rw [h, List.mem_toFinset]
    have hmem : [] ∈ splitSpace v.data := by
      rcases hsp with hh | ⟨a, ha⟩ | ⟨a, b, hab⟩
      · cases hv : v.data with
        | nil => rw [hv] at hh; exact absurd hh (by simp)
        | cons c rest =>
          rw [hv] at hh
          have hc : c = ' ' := by simpa using hh
          rw [hc, splitSpace_cons_space]
          exact List.mem_cons_self _ _
      · obtain ⟨l, hl, _⟩ := splitSpace_trailing a
        rw [ha, hl]
        simp
      · obtain ⟨l1, l2, hl, _⟩ := splitSpace_adjacent a b
        rw [hab, hl]
        simp
    exact List.mem_map.mpr ⟨[], hmem, rfl⟩

/-- Witness for C10: a concrete element whose class attribute is the empty
string. -/
theorem classes_empty_string_tokens_witness :
    AttrMap.get (ElementData.mk "p" [("class", "")]).attributes "class" = some "" ∧
    (ElementData.mk "p" [("class", "")]).classes = {""} :=
  ⟨rfl, classes_empty_string_tokens.1 (ElementData.mk "p" [("class", "")]) rfl⟩

/-- A run containing no occurrence of `q` is consumed whole by
`takeWhile (· != q)`. -/
theorem takeWhile_ne_all {l : List Char} {q : Char} (h : ∀ c ∈ l, c ≠ q) :
    l.takeWhile (fun c => c != q) = l := by
  induction l with
  | nil => rfl
  | cons a t ih =>
    have ha : (a != q) = true := bne_iff_ne.mpr (h a (List.mem_cons_self _ _))
    rw [List.takeWhile_cons, ha]
    simp only [if_true]
    rw [ih fun c hc => h c (List.mem_cons_of_mem _ hc)]

/-- Claim C4: `parse_attr_value` requires a single or double quote at the
cursor (`expectedQuote` otherwise), consumes the interior up to the next
occurrence of the same quote and the closing quote itself, returning
exactly the interior string, and signals `unterminatedAttrValue` when the
quote never reappears; concretely `<a x=1>` fails with `expectedQuote`. -/
theorem parse_attr_value_quote_spec :
    (∀ (p p1 : Parser) (c : Char), p.consume_char = (c, p1) → ¬ c = '"' → ¬ c = '\'' →
      p.parse_attr_value = .error .expectedQuote) ∧
    (∀ (p p1 p2 p3 : Parser) (q : Char) (v : String),
      p.consume_char = (q, p1) → (q = '"' ∨ q = '\'') →
      p1.consume_while (fun c => c != q) = (v, p2) →
      p2.consume_char = (q, p3) →
      p.parse_attr_value = .ok (v, p3)) ∧
    (∀ (p p1 : Parser) (q : Char),
      p.consume_char = (q, p1) → (q = '"' ∨ q = '\'') →
      (∀ c ∈ p1.input.drop p1.pos, c ≠ q) →
      p.parse_attr_value = .error .unterminatedAttrValue) ∧
    Parser.parse "<a x=1>" = .error .expectedQuote := by
  refine ⟨?_, ?_, ?_, rfl⟩
  · intro p p1 c h hc1 hc2
    simp [Parser.parse_attr_value, h, hc1, hc2]
  · intro p p1 p2 p3 q v h hq hw hc
    rcases hq with hq | hq <;> subst hq <;>
      simp [Parser.parse_attr_value, h, hw, hc]
  · intro p p1 q h hq hno
    have hw : p1.consume_while (fun c => c != q) =
        (String.mk (p1.input.drop p1.pos),
          { p1 with pos := p1.pos + (p1.input.drop p1.pos).length }) := by
      simp only [Parser.consume_while]
      rw [takeWhile_ne_all hno]
    have hc2 : ({ p1 with pos := p1.pos + (p1.input.drop p1.pos).length } : Parser).consume_char =
        (' ', { p1 with pos := p1.pos + (p1.input.drop p1.pos).length }) := by
      have hdrop : List.drop (p1.pos + (List.drop p1.pos p1.input).length) p1.input = [] :=
        List.drop_eq_nil_of_le (by rw [List.length_drop]; omega)
      simp only [Parser.consume_char, hdrop, List.head?_nil]
    have hnq : ¬ (' ' = q) := by
      rcases hq with hq | hq <;> subst hq <;> decide
    simp only [Parser.parse_attr_value, h, if_pos hq, hw, hc2, if_neg hnq]

/-- Witness for C4: inside `<a x=1>`, the character at the attribute-value
position is `1`, not a quote, so `parse_attr_value` fails with
`expectedQuote`. -/
theorem parse_attr_value_quote_spec_witness :
    (Parser.mk 5 "<a x=1>".data).consume_char = ('1', Parser.mk 6 "<a x=1>".data) ∧
    (Parser.mk 5 "<a x=1>".data).parse_attr_value = .error .expectedQuote :=
  ⟨rfl, parse_attr_value_quote_spec.1 (Parser.mk 5 "<a x=1>".data)
    (Parser.mk 6 "<a x=1>".data) '1' rfl (by decide) (by decide)⟩

/-- Claim C3: when `parse_element` reads a closing tag whose name differs
from the opening tag name, the parse fails with `mismatchedClosingTag`
instead of returning a tree; concretely `<a></b>` fails with
`mismatchedClosingTag`. -/
theorem parse_element_mismatched_closing :
    (∀ (fuel : Nat) (p p1 p2 p3 p4 p5 p6 p7 p8 : Parser) (tag closing : String)
      (attrs : AttrMap) (children : List Node),
      p.consume_char = ('<', p1) →
      p1.parse_tag_name = (tag, p2) →
      p2.parse_attributes = .ok (attrs, p3) →
      p3.consume_char = ('>', p4) →
      Parser.parse_nodes fuel p4 = .ok (children, p5) →
      p5.consume_char = ('<', p6) →
      p6.consume_char = ('/', p7) →
      p7.parse_tag_name = (closing, p8) →
      ¬ closing = tag →
      Parser.parse_element (fuel + 1) p = .error .mismatchedClosingTag) ∧
    Parser.parse "<a></b>" = .error .mismatchedClosingTag := by
  refine ⟨?_, rfl⟩
  intro fuel p p1 p2 p3 p4 p5 p6 p7 p8 tag closing attrs children h1 h2 h3 h4 h5 h6 h7 h8 hne
  simp [Parser.parse_element, h1, h2, h3, h4, h5, h6, h7, h8, hne]

/-- Witness for C3: the concrete intermediate states of parsing `<a></b>`,
whose closing tag name `b` differs from the opening name `a`. -/
theorem parse_element_mismatched_closing_witness :
    (¬ ("b" : String) = "a") ∧
    Parser.parse_element 2 (Parser.mk 0 "<a></b>".data) = .error .mismatchedClosingTag :=
  ⟨by decide,
    parse_element_mismatched_closing.1 1
      (Parser.mk 0 "<a></b>".data) (Parser.mk 1 "<a></b>".data)
      (Parser.mk 2 "<a></b>".data) (Parser.mk 2 "<a></b>".data)
      (Parser.mk 3 "<a></b>".data) (Parser.mk 3 "<a></b>".data)
      (Parser.mk 4 "<a></b>".data) (Parser.mk 5 "<a></b>".data)
      (Parser.mk 6 "<a></b>".data)
      "a" "b" [] [] rfl rfl rfl rfl rfl rfl rfl rfl (by decide)⟩

/-- `consume_char` never moves the cursor backwards and never changes the
input. -/
theorem consume_char_mono {p p' : Parser} {c : Char} (h : p.consume_char = (c, p')) :
    p.pos ≤ p'.pos ∧ p'.input = p.input := by
  unfold Parser.consume_char at h
  cases hh : (p.input.drop p.pos).head? with
  | none =>
    rw [hh] at h
    injection h with h1 h2
    subst h2
    exact ⟨Nat.le_refl _, rfl⟩
  | some a =>
    rw [hh] at h
    injection h with h1 h2
    subst h2
    exact ⟨Nat.le_succ _, rfl⟩

/-- `consume_while` never moves the cursor backwards and never changes the
input. -/
theorem consume_while_mono {p p' : Parser} {f : Char → Bool} {s : String}
    (h : p.consume_while f = (s, p')) : p.pos ≤ p'.pos ∧ p'.input = p.input := by
  simp only [Parser.consume_while] at h
  injection h with h1 h2
  subst h2
  exact ⟨Nat.le_add_right _ _, rfl⟩

/-- `consume_whitespace` never moves the cursor backwards and never changes
the input. -/
theorem consume_whitespace_mono (p : Parser) :
    p.pos ≤ (p.consume_whitespace).pos ∧ (p.consume_whitespace).input = p.input := by
  unfold Parser.consume_whitespace Parser.consume_while
  exact ⟨Nat.le_add_right _ _, rfl⟩

/-- `parse_tag_name` never moves the cursor backwards and never changes the
input. -/
theorem parse_tag_name_mono {p p' : Parser} {s : String} (h : p.parse_tag_name = (s, p')) :
    p.pos ≤ p'.pos ∧ p'.input = p.input := by
  unfold Parser.parse_tag_name at h
  exact consume_while_mono h

/-- `parse_text` never moves the cursor backwards and never changes the
input. -/
theorem parse_text_mono {p p' : Parser} {n : Node} (h : p.parse_text = (n, p')) :
    p.pos ≤ p'.pos ∧ p'.input = p.input := by
  simp only [Parser.parse_text] at h
  cases hw : p.consume_while (fun c => c != '<') with
  | mk s p1 =>
    rw [hw] at h
    injection h with h1 h2
    subst h2
    exact consume_while_mono hw

/-- A successful `parse_attr_value` never moves the cursor backwards and
never changes the input. -/
theorem parse_attr_value_mono {p p' : Parser} {v : String}
    (h : p.parse_attr_value = .ok (v, p')) : p.pos ≤ p'.pos ∧ p'.input = p.input := by
  simp only [Parser.parse_attr_value] at h
  cases hc : p.consume_char with
  | mk c0 p1 =>
    rw [hc] at h
    by_cases hq : c0 = '"' ∨ c0 = '\''
    · rw [if_pos hq] at h
      cases hw : p1.consume_while (fun c => c != c0) with
      | mk val p2 =>
        rw [hw] at h
        cases hc2 : p2.consume_char with
        | mk c2 p3 =>
          rw [hc2] at h
          by_cases he : c2 = c0
          · rw [if_pos he] at h
            injection h with h1
            injection h1 with hv hp
            subst hp
            obtain ⟨a1, a2⟩ := consume_char_mono hc
            obtain ⟨b1, b2⟩ := consume_while_mono hw
            obtain ⟨d1, d2⟩ := consume_char_mono hc2
            exact ⟨le_trans a1 (le_trans b1 d1), by rw [d2, b2, a2]⟩
          · rw [if_neg he] at h
            exact Except.noConfusion h
    · rw [if_neg hq] at h
      exact Except.noConfusion h

/-- A successful `parse_attr` never moves the cursor backwards and never
changes the input. -/
theorem parse_attr_mono {p p' : Parser} {a : String × String}
    (h : p.parse_attr = .ok (a, p')) : p.pos ≤ p'.pos ∧ p'.input = p.input := by
  simp only [Parser.parse_attr] at h
  cases ht : p.parse_tag_name with
  | mk name p1 =>
    rw [ht] at h
    cases hc : p1.consume_char with
    | mk c p2 =>
      rw [hc] at h
      by_cases he : c = '='
      · rw [if_pos he] at h
        cases hv : p2.parse_attr_value with
        | error e =>
          rw [hv] at h
          exact Except.noConfusion h
        | ok vp =>
          obtain ⟨value, p3⟩ := vp
          rw [hv] at h
          injection h with h1
          injection h1 with hv1 hp
          subst hp
          obtain ⟨a1, a2⟩ := parse_tag_name_mono ht
          obtain ⟨b1, b2⟩ := consume_char_mono hc
          obtain ⟨d1, d2⟩ := parse_attr_value_mono hv
          exact ⟨le_trans a1 (le_trans b1 d1), by rw [d2, b2, a2]⟩
      · rw [if_neg he] at h
        exact Except.noConfusion h

/-- A successful attribute loop never moves the cursor backwards and never
changes the input. -/
theorem parse_attributes_loop_mono (fuel : Nat) :
    ∀ (attrs : AttrMap) (p p' : Parser) (m : AttrMap),
      Parser.parse_attributes_loop fuel attrs p = .ok (m, p') →
      p.pos ≤ p'.pos ∧ p'.input = p.input := by
  induction fuel with
  | zero =>
    intro attrs p p' m h
    exact Except.noConfusion h
  | succ f ih =>
    intro attrs p p' m h
    simp only [Parser.parse_attributes_loop] at h
    cases hn : (p.consume_whitespace).next_char with
    | none =>
      simp [hn] at h
    | some c =>
      simp only [hn] at h
      by_cases hgt : c = '>'
      · rw [if_pos hgt] at h
        injection h with h1
        injection h1 with hm hp
        subst hp
        exact consume_whitespace_mono p
      · rw [if_neg hgt] at h
        cases ha : (p.consume_whitespace).parse_attr with
        | error e =>
          simp [ha] at h
        | ok nvp =>
          obtain ⟨nv, p2⟩ := nvp
          obtain ⟨nm, nvl⟩ := nv
          simp only [ha] at h
          obtain ⟨a1, a2⟩ := consume_whitespace_mono p
          obtain ⟨b1, b2⟩ := parse_attr_mono ha
          obtain ⟨c1, c2⟩ := ih _ _ _ _ h
          exact ⟨le_trans a1 (le_trans b1 c1), by rw [c2, b2, a2]⟩

/-- A successful `parse_attributes` never moves the cursor backwards and
never changes the input. -/
theorem parse_attributes_mono {p p' : Parser} {m : AttrMap}
    (h : p.parse_attributes = .ok (m, p')) : p.pos ≤ p'.pos ∧ p'.input = p.input := by
  unfold Parser.parse_attributes at h
  exact parse_attributes_loop_mono _ _ _ _ _ h

/-- The three mutually recursive grammar rules never move the cursor
backwards and never change the input, for every fuel value. -/
theorem parse_rec_mono (fuel : Nat) :
    (∀ (p p' : Parser) (n : Node), Parser.parse_node fuel p = .ok (n, p') →
      p.pos ≤ p'.pos ∧ p'.input = p.input) ∧
    (∀ (p p' : Parser) (n : Node), Parser.parse_element fuel p = .ok (n, p') →
      p.pos ≤ p'.pos ∧ p'.input = p.input) ∧
    (∀ (p p' : Parser) (ns : List Node), Parser.parse_nodes fuel p = .ok (ns, p') →
      p.pos ≤ p'.pos ∧ p'.input = p.input) := by
  induction fuel with
  | zero =>
    exact ⟨fun p p' n h => Except.noConfusion h,
      fun p p' n h => Except.noConfusion h,
      fun p p' ns h => Except.noConfusion h⟩
  | succ f ih =>
    obtain ⟨ihN, ihE, ihS⟩ := ih
    refine ⟨?_, ?_, ?_⟩
    · intro p p' n h
      simp only [Parser.parse_node] at h
      cases hn : p.next_char with
      | none =>
        simp [hn] at h
      | some c =>
        simp only [hn] at h
        by_cases hlt : c = '<'
        · rw [if_pos hlt] at h
          exact ihE _ _ _ h
        · rw [if_neg hlt] at h
          injection h with h1
          exact parse_text_mono h1
    · intro p p' n h
      simp only [Parser.parse_element] at h
      cases hc0 : p.consume_char with
      | mk c0 p1 =>
        rw [hc0] at h
        by_cases h0 : c0 = '<'
        · rw [if_pos h0] at h
          cases htn : p1.parse_tag_name with
          | mk tag p2 =>
            rw [htn] at h
            cases hat : p2.parse_attributes with
            | error e =>
              simp [hat] at h
            | ok ap =>
              obtain ⟨attrs, p3⟩ := ap
              simp only [hat] at h
              cases hc1 : p3.consume_char with
              | mk c1 p4 =>
                rw [hc1] at h
                by_cases h1 : c1 = '>'
                · rw [if_pos h1] at h
                  cases hns : Parser.parse_nodes f p4 with
                  | error e =>
                    simp [hns] at h
                  | ok cp =>
                    obtain ⟨children, p5⟩ := cp
                    simp only [hns] at h
                    cases hc2 : p5.consume_char with
                    | mk c2 p6 =>
                      rw [hc2] at h
                      by_cases h2 : c2 = '<'
                      · rw [if_pos h2] at h
                        cases hc3 : p6.consume_char with
                        | mk c3 p7 =>
                          rw [hc3] at h
                          by_cases h3 : c3 = '/'
                          · rw [if_pos h3] at h
                            cases hcl : p7.parse_tag_name with
                            | mk closing p8 =>
                              rw [hcl] at h
                              by_cases h4 : closing = tag
                              · rw [if_pos h4] at h
                                cases hc4 : p8.consume_char with
                                | mk c4 p9 =>
                                  rw [hc4] at h
                                  by_cases h5 : c4 = '>'
                                  · rw [if_pos h5] at h
                                    injection h with hh
                                    injection hh with hn1 hp
                                    subst hp
                                    obtain ⟨m0, e0⟩ := consume_char_mono hc0
                                    obtain ⟨m1, e1⟩ := parse_tag_name_mono htn
                                    obtain ⟨m2, e2⟩ := parse_attributes_mono hat
                                    obtain ⟨m3, e3⟩ := consume_char_mono hc1
                                    obtain ⟨m4, e4⟩ := ihS _ _ _ hns
                                    obtain ⟨m5, e5⟩ := consume_char_mono hc2
                                    obtain ⟨m6, e6⟩ := consume_char_mono hc3
                                    obtain ⟨m7, e7⟩ := parse_tag_name_mono hcl
                                    obtain ⟨m8, e8⟩ := consume_char_mono hc4
                                    refine ⟨le_trans m0 (le_trans m1 (le_trans m2
                                      (le_trans m3 (le_trans m4 (le_trans m5
                                        (le_trans m6 (le_trans m7 m8))))))), ?_⟩
                                    rw [e8, e7, e6, e5, e4, e3, e2, e1, e0]
                                  · rw [if_neg h5] at h
                                    exact Except.noConfusion h
                              · rw [if_neg h4] at h
                                exact Except.noConfusion h
                          · rw [if_neg h3] at h
                            exact Except.noConfusion h
                      · rw [if_neg h2] at h
                        exact Except.noConfusion h
                · rw [if_neg h1] at h
                  exact Except.noConfusion h
        · rw [if_neg h0] at h
          exact Except.noConfusion h
    · intro p p' ns h
      simp only [Parser.parse_nodes] at h
      by_cases hb : ((p.consume_whitespace).eof || (p.consume_whitespace).starts_with "</") = true
      · rw [if_pos hb] at h
        injection h with h1
        injection h1 with hn1 hp
        subst hp
        exact consume_whitespace_mono p
      · rw [if_neg hb] at h
        cases hn1 : Parser.parse_node f (p.consume_whitespace) with
        | error e =>
          simp [hn1] at h
        | ok np =>
          obtain ⟨n1, p2⟩ := np
          simp only [hn1] at h
          cases hn2 : Parser.parse_nodes f p2 with
          | error e =>
            simp [hn2] at h
          | ok nsp =>
            obtain ⟨ns2, p3⟩ := nsp
            simp only [hn2] at h
            injection h with h1
            injection h1 with hn3 hp
            subst hp
            obtain ⟨a1, a2⟩ := consume_whitespace_mono p
            obtain ⟨b1, b2⟩ := ihN _ _ _ hn1
            obtain ⟨c1, c2⟩ := ihS _ _ _ hn2
            exact ⟨le_trans a1 (le_trans b1 c1), by rw [c2, b2, a2]⟩

/-- Claim C8: cursor monotonicity — every state-changing parser operation
(consume one character, consume while, consume whitespace, and every
grammar-level operation) leaves the cursor at a position at least its
starting position and never modifies the input string.  The remaining
primitives (`next_char`, `starts_with`, `eof`) take the state immutably and
return no state at all. -/
theorem parser_cursor_monotone :
    (∀ (p p' : Parser) (c : Char), p.consume_char = (c, p') →
      p.pos ≤ p'.pos ∧ p'.input = p.input) ∧
    (∀ (p p' : Parser) (f : Char → Bool) (s : String), p.consume_while f = (s, p') →
      p.pos ≤ p'.pos ∧ p'.input = p.input) ∧
    (∀ p : Parser, p.pos ≤ (p.consume_whitespace).pos ∧
      (p.consume_whitespace).input = p.input) ∧
    (∀ (p p' : Parser) (s : String), p.parse_tag_name = (s, p') →
      p.pos ≤ p'.pos ∧ p'.input = p.input) ∧
    (∀ (p p' : Parser) (n : Node), p.parse_text = (n, p') →
      p.pos ≤ p'.pos ∧ p'.input = p.input) ∧
    (∀ (p p' : Parser) (v : String), p.parse_attr_value = .ok (v, p') →
      p.pos ≤ p'.pos ∧ p'.input = p.input) ∧
    (∀ (p p' : Parser) (a : String × String), p.parse_attr = .ok (a, p') →
      p.pos ≤ p'.pos ∧ p'.input = p.input) ∧
    (∀ (p p' : Parser) (m : AttrMap), p.parse_attributes = .ok (m, p') →
      p.pos ≤ p'.pos ∧ p'.input = p.input) ∧
    (∀ (fuel : Nat) (p p' : Parser) (n : Node), Parser.parse_node fuel p = .ok (n, p') →
      p.pos ≤ p'.pos ∧ p'.input = p.input) ∧
    (∀ (fuel : Nat) (p p' : Parser) (n : Node), Parser.parse_element fuel p = .ok (n, p') →
      p.pos ≤ p'.pos ∧ p'.input = p.input) ∧
    (∀ (fuel : Nat) (p p' : Parser) (ns : List Node), Parser.parse_nodes fuel p = .ok (ns, p') →
      p.pos ≤ p'.pos ∧ p'.input = p.input) :=
  ⟨fun _ _ _ h => consume_char_mono h,
   fun _ _ _ _ h => consume_while_mono h,
   consume_whitespace_mono,
   fun _ _ _ h => parse_tag_name_mono h,
   fun _ _ _ h => parse_text_mono h,
   fun _ _ _ h => parse_attr_value_mono h,
   fun _ _ _ h => parse_attr_mono h,
   fun _ _ _ h => parse_attributes_mono h,
   fun fuel _ _ _ h => (parse_rec_mono fuel).1 _ _ _ h,
   fun fuel _ _ _ h => (parse_rec_mono fuel).2.1 _ _ _ h,
   fun fuel _ _ _ h => (parse_rec_mono fuel).2.2 _ _ _ h⟩

/-- Witness for C8: one concrete consumption — the cursor goes from 0 to 1
and the input is untouched. -/
theorem parser_cursor_monotone_witness :
    (Parser.mk 0 ['a', 'b']).consume_char = ('a', Parser.mk 1 ['a', 'b']) ∧
    ((Parser.mk 0 ['a', 'b']).pos ≤ (Parser.mk 1 ['a', 'b']).pos ∧
      (Parser.mk 1 ['a', 'b']).input = (Parser.mk 0 ['a', 'b']).input) :=
  ⟨rfl, parser_cursor_monotone.1 (Parser.mk 0 ['a', 'b']) (Parser.mk 1 ['a', 'b']) 'a' rfl⟩

end Dom
